import Mathlib

/-!
Verification of the Biot-Savart field solver and inductance integrator of the
wireless-power-transfer repository (src/biot_savart.py, src/geom.py).

Real-valued float arithmetic is modelled over `ℝ`, complex currents over `ℂ`.
3-vectors are triples; numpy arrays of shape (3, N) are `List Vec3`.
-/

noncomputable section

abbrev Vec3 := ℝ × ℝ × ℝ
abbrev CVec3 := ℂ × ℂ × ℂ

/-- Inject a real 3-vector into the complex 3-vectors. -/
def toC (v : Vec3) : CVec3 := ((v.1 : ℂ), (v.2.1 : ℂ), (v.2.2 : ℂ))

/-- Euclidean norm of a real 3-vector (`np.linalg.norm`). -/
def vnorm (v : Vec3) : ℝ := Real.sqrt (v.1 ^ 2 + v.2.1 ^ 2 + v.2.2 ^ 2)

/-- Cross product of two real 3-vectors (`np.cross`). -/
def cross (a b : Vec3) : Vec3 :=
  (a.2.1 * b.2.2 - a.2.2 * b.2.1,
   a.2.2 * b.1 - a.1 * b.2.2,
   a.1 * b.2.1 - a.2.1 * b.1)

/-- Euclidean norm of a complex 3-vector (`np.linalg.norm` on a complex row). -/
def cnorm (v : CVec3) : ℝ :=
  Real.sqrt (Complex.abs v.1 ^ 2 + Complex.abs v.2.1 ^ 2 + Complex.abs v.2.2 ^ 2)

/-- The wire data the solver reads: vertex coordinates (`coordz`, transposed to a
vertex list) and the complex current `I`. -/
structure Wire where
  coordz : List Vec3
  I : ℂ

/-- Midpoint of a sub-segment, `rp = (dL[1] + dL[0]) / 2` in `__db_scale`. -/
def segMidpoint (s e : Vec3) : Vec3 := (2⁻¹ : ℝ) • (e + s)

/-- `BiotSolver.__db_scale` (src/biot_savart.py lines 62-89): contribution of one
sub-segment `[s, e]` to the field at `p`, for complex current `cur`. -/
def dbScale (s e p : Vec3) (cur : ℂ) : CVec3 :=
  let mu : ℝ := 4 * Real.pi * 1e-7
  let vdL := e - s
  let r := p - segMidpoint s e
  let r3 := vnorm r ^ 3
  let c := cross vdL r
  (((mu / (4 * Real.pi) : ℝ) : ℂ) * cur) • toC (c.1 / r3, c.2.1 / r3, c.2.2 / r3)

/-- `BiotSolver.__solve_segment` (lines 41-59): sum of `__db_scale` over the
consecutive point pairs of a discretized segment. -/
def solveSegment (seg : List Vec3) (p : Vec3) (cur : ℂ) : CVec3 :=
  ((List.range (seg.length - 1)).map
    (fun i => dbScale (seg.getD i 0) (seg.getD (i + 1) 0) p cur)).sum

/-- Core of `BiotSolver.__discretize` (lines 108-134) on one edge `p0 -> p1`.
Mirrors the source: for `L < dL` the original endpoints are returned; otherwise
the emitted points are `p0 + v*1, ..., p0 + v*k` (`np.arange(1, n_segments+1)`,
the start point `p0` is not emitted), with `p1` appended when `k ≠ L / dL`. -/
def discretizeEdge (p0 p1 : Vec3) (dL : ℝ) : List Vec3 :=
  let u := p1 - p0
  let L := vnorm u
  if L < dL then [p0, p1]
  else
    let k := (⌊L / dL⌋).toNat
    let v := (dL / L) • u
    let pts := (List.range k).map (fun j : ℕ => p0 + ((j + 1 : ℕ) : ℝ) • v)
    if (k : ℝ) ≠ L / dL then pts ++ [p1] else pts

/-- `BiotSolver.__discretize` (lines 92-134): guard on the vertex index, then
edge discretization of edge `n`. -/
def discretize (w : Wire) (dL : ℝ) (n : ℕ) : List Vec3 :=
  if w.coordz.length < n + 1 then []
  else discretizeEdge (w.coordz.getD n 0) (w.coordz.getD (n + 1) 0) dL

/-- The accumulation loops of `BiotSolver.solve` (lines 26-38), acting on an
initial accumulator `B`: for each edge `i` and each point index `p`, the (1,3)
row `__solve_segment(segments[i], points[:,p], wire.I)` is broadcast-added to
every row of `B`. -/
def solveFold (w : Wire) (pts : List Vec3) (dL : ℝ) (B : List CVec3) : List CVec3 :=
  (List.range (w.coordz.length - 1)).foldl (fun B i =>
    (List.range pts.length).foldl (fun B' p =>
      B'.map (fun y => y + solveSegment (discretize w dL i) (pts.getD p 0) w.I)) B) B

/-- `BiotSolver.solve` (lines 13-38): accumulator initialized to
`np.zeros((len(points[0]), 3))`, then the nested accumulation loops. -/
def solve (w : Wire) (pts : List Vec3) (dL : ℝ) : List CVec3 :=
  solveFold w pts dL (List.replicate pts.length 0)

/-- Total accumulated contribution over all edges and all observation points;
because of the broadcast add in `solve`, this is the value every output row
ends up holding. -/
def solveTotal (w : Wire) (pts : List Vec3) (dL : ℝ) : CVec3 :=
  ((List.range (w.coordz.length - 1)).map (fun i =>
    ((List.range pts.length).map (fun p =>
      solveSegment (discretize w dL i) (pts.getD p 0) w.I)).sum)).sum

/-- Modelled from the spec's solver contract: one field vector per observation
point, the i-th vector summing the contributions of every sub-segment of every
edge evaluated at the i-th point only. -/
def solvePerPoint (w : Wire) (pts : List Vec3) (dL : ℝ) : List CVec3 :=
  pts.map (fun p =>
    ((List.range (w.coordz.length - 1)).map (fun i =>
      solveSegment (discretize w dL i) p w.I)).sum)

/-- Modelled from the spec's discretizer contract: emit `P0`, then
`P0 + (dL·u/L)·1, ..., P0 + (dL·u/L)·k`, appending `P1` when `k·dL ≠ L`;
an edge shorter than `dL` is returned unchanged. -/
def discretizeEdgeSpec (p0 p1 : Vec3) (dL : ℝ) : List Vec3 :=
  let u := p1 - p0
  let L := vnorm u
  if L < dL then [p0, p1]
  else
    let k := (⌊L / dL⌋).toNat
    let v := (dL / L) • u
    let pts := p0 :: (List.range k).map (fun j : ℕ => p0 + ((j + 1 : ℕ) : ℝ) • v)
    if (k : ℝ) * dL ≠ L then pts ++ [p1] else pts

/-- The magnetic constant `μ₀ = 4π×10⁻⁷` of the spec. -/
def mu0 : ℝ := 4 * Real.pi * 1e-7

/-- Modelled from the spec's field-contributor contract:
`dB = (μ₀ / 4π) · I · (vdL × r) / r3` with `vdL = end − start`,
`rp = (end + start)/2`, `r = point − rp`, `r3 = |r|³`. -/
def dbScaleSpec (s e p : Vec3) (cur : ℂ) : CVec3 :=
  let vdL := e - s
  let rp := segMidpoint s e
  let r := p - rp
  let r3 := vnorm r ^ 3
  let c := cross vdL r
  (((mu0 / (4 * Real.pi) : ℝ) : ℂ) * cur * (c.1 : ℂ) / (r3 : ℂ),
   ((mu0 / (4 * Real.pi) : ℝ) : ℂ) * cur * (c.2.1 : ℂ) / (r3 : ℂ),
   ((mu0 / (4 * Real.pi) : ℝ) : ℂ) * cur * (c.2.2 : ℂ) / (r3 : ℂ))

end

section Lemmas

/-- A broadcast-accumulating fold over a replicated accumulator stays replicated,
with the fold of the per-step increments accumulated into each slot. -/
theorem foldl_map_add_replicate (l : List β) (f : β → CVec3) (n : ℕ) (a : CVec3) :
    l.foldl (fun B x => B.map (fun y => y + f x)) (List.replicate n a)
      = List.replicate n (a + (l.map f).sum) := by
  induction l generalizing a with
  | nil => simp
  | cons x xs ih =>
    simp only [List.foldl_cons, List.map_replicate, ih, List.map_cons, List.sum_cons,
      add_assoc]

/-- Nested broadcast-accumulating folds over a replicated accumulator. -/
theorem foldl_foldl_map_add_replicate (l : List β) (inner : β → List γ)
    (g : β → γ → CVec3) (n : ℕ) (a : CVec3) :
    l.foldl (fun B i =>
        (inner i).foldl (fun B' p => B'.map (fun y => y + g i p)) B)
        (List.replicate n a)
      = List.replicate n (a + (l.map (fun i => ((inner i).map (g i)).sum)).sum) := by
  induction l generalizing a with
  | nil => simp
  | cons x xs ih =>
    simp only [List.foldl_cons, foldl_map_add_replicate, ih, List.map_cons,
      List.sum_cons, add_assoc]

/-- Closed form of `solve`: the broadcast add makes every output row equal to the
total accumulated contribution `solveTotal`. -/
theorem solve_closed_form (w : Wire) (pts : List Vec3) (dL : ℝ) :
    solve w pts dL = List.replicate pts.length (solveTotal w pts dL) := by
  unfold solve solveFold solveTotal
  rw [foldl_foldl_map_add_replicate, zero_add]

/-- The solver output has one row per observation point. -/
theorem solve_length (w : Wire) (pts : List Vec3) (dL : ℝ) :
    (solve w pts dL).length = pts.length := by
  rw [solve_closed_form, List.length_replicate]

end Lemmas

/-- Claim C3: for every wire, point set and dL, all field vectors returned by
`solve` are equal to one another: every observation point receives the identical
complex 3-vector, namely the sum of the per-point segment contributions over all
points, because each point's (1,3) contribution is broadcast-added to every row
of the accumulator. -/
theorem solve_rows_all_equal (w : Wire) (pts : List Vec3) (dL : ℝ) :
    solve w pts dL = List.replicate pts.length (solveTotal w pts dL) :=
  solve_closed_form w pts dL

section Lemmas2

/-- The short-edge branch of the discretizer: an edge shorter than `dL` is
returned unchanged. -/
theorem discretizeEdge_short (p0 p1 : Vec3) (dL : ℝ) (h : vnorm (p1 - p0) < dL) :
    discretizeEdge p0 p1 dL = [p0, p1] := by
  unfold discretizeEdge
  rw [if_pos h]

/-- The norm of the zero vector is zero. -/
theorem vnorm_zero_vec : vnorm (0 : Vec3) = 0 := by
  simp [vnorm]

end Lemmas2

/-- Claim C5 (counterexample): a zero-length edge with dL = 1 does not fail:
the discretizer returns the two identical endpoints as an ordinary point
sequence. -/
theorem discretize_zero_length_counterexample :
    vnorm ((((0:ℝ), (0:ℝ), (0:ℝ)) : Vec3) - ((0:ℝ), (0:ℝ), (0:ℝ))) = 0 ∧
    discretizeEdge ((0:ℝ), (0:ℝ), (0:ℝ)) ((0:ℝ), (0:ℝ), (0:ℝ)) 1
      = [((0:ℝ), (0:ℝ), (0:ℝ)), ((0:ℝ), (0:ℝ), (0:ℝ))] := by
  constructor
  · simp [vnorm]
  · apply discretizeEdge_short
    simp [vnorm]

/-- Claim C5 (amended): the discretizer performs no InvalidParameter validation:
a zero-length edge with positive `dL` takes the `L < dL` branch and is returned
unchanged as its two identical endpoints, a non-error result. -/
theorem discretize_zero_length_returns_endpoints (p : Vec3) (dL : ℝ) (h : 0 < dL) :
    discretizeEdge p p dL = [p, p] := by
  apply discretizeEdge_short
  simpa [vnorm] using h

/-- Claim C5 (witness): the amended statement at a concrete degenerate edge. -/
theorem discretize_zero_length_returns_endpoints_witness :
    (0:ℝ) < 1 ∧ discretizeEdge ((1:ℝ), (2:ℝ), (3:ℝ)) ((1:ℝ), (2:ℝ), (3:ℝ)) 1
      = [((1:ℝ), (2:ℝ), (3:ℝ)), ((1:ℝ), (2:ℝ), (3:ℝ))] :=
  ⟨by norm_num, discretize_zero_length_returns_endpoints _ _ (by norm_num)⟩

/-- Claim C4 (counterexample): at an observation point that coincides with the
sub-segment midpoint, `__db_scale` does not fail with NumericSingularity: it
performs the division with `r3 = 0` and returns an ordinary value (in the exact
model the zero vector, since the numerator `vdL × r` vanishes at `r = 0`). -/
theorem db_scale_midpoint_counterexample :
    segMidpoint ((0:ℝ), (0:ℝ), (0:ℝ)) ((2:ℝ), (0:ℝ), (0:ℝ)) = ((1:ℝ), (0:ℝ), (0:ℝ)) ∧
    dbScale ((0:ℝ), (0:ℝ), (0:ℝ)) ((2:ℝ), (0:ℝ), (0:ℝ)) ((1:ℝ), (0:ℝ), (0:ℝ)) 1 = 0 := by
  have hmid : segMidpoint ((0:ℝ), (0:ℝ), (0:ℝ)) ((2:ℝ), (0:ℝ), (0:ℝ))
      = ((1:ℝ), (0:ℝ), (0:ℝ)) := by
    simp [segMidpoint, Prod.ext_iff]
  refine ⟨hmid, ?_⟩
  unfold dbScale
  rw [hmid]
  simp [cross, toC, Prod.ext_iff]

/-- Claim C4 (amended): no NumericSingularity guard exists: for every
sub-segment and current, evaluating at the midpoint returns a plain value (the
zero vector in exact arithmetic, as the cross-product numerator is zero there);
no error is raised. -/
theorem db_scale_midpoint_no_error (s e : Vec3) (cur : ℂ) :
    dbScale s e (segMidpoint s e) cur = 0 := by
  unfold dbScale
  simp [cross, toC, Prod.ext_iff]

section Lemmas3

/-- Norm of the vector (2,0,0). -/
theorem vnorm_two_x : vnorm ((2:ℝ), (0:ℝ), (0:ℝ)) = 2 := by
  unfold vnorm
  rw [show (2:ℝ)^2 + 0^2 + 0^2 = 2^2 by norm_num]
  exact Real.sqrt_sq (by norm_num)

end Lemmas3

/-- Claim C2: the claim follows the spec, but on the edge (0,0,0)-(2,0,0) with
dL = 1 (so L = 2, k = 2) the code emits only `P0 + v·1, P0 + v·2`, omitting the
initial endpoint `P0` that the claim requires, while the spec's sequence starts
at `P0`; the two sequences differ. -/
theorem discretize_omits_start_vertex :
    discretizeEdge ((0:ℝ), (0:ℝ), (0:ℝ)) ((2:ℝ), (0:ℝ), (0:ℝ)) 1
      = [((1:ℝ), (0:ℝ), (0:ℝ)), ((2:ℝ), (0:ℝ), (0:ℝ))] ∧
    discretizeEdgeSpec ((0:ℝ), (0:ℝ), (0:ℝ)) ((2:ℝ), (0:ℝ), (0:ℝ)) 1
      = [((0:ℝ), (0:ℝ), (0:ℝ)), ((1:ℝ), (0:ℝ), (0:ℝ)), ((2:ℝ), (0:ℝ), (0:ℝ))] ∧
    discretizeEdge ((0:ℝ), (0:ℝ), (0:ℝ)) ((2:ℝ), (0:ℝ), (0:ℝ)) 1
      ≠ discretizeEdgeSpec ((0:ℝ), (0:ℝ), (0:ℝ)) ((2:ℝ), (0:ℝ), (0:ℝ)) 1 := by
  have hsub : (((2:ℝ), (0:ℝ), (0:ℝ)) : Vec3) - ((0:ℝ), (0:ℝ), (0:ℝ))
      = ((2:ℝ), (0:ℝ), (0:ℝ)) := by
    simp
  have hcode : discretizeEdge ((0:ℝ), (0:ℝ), (0:ℝ)) ((2:ℝ), (0:ℝ), (0:ℝ)) 1
      = [((1:ℝ), (0:ℝ), (0:ℝ)), ((2:ℝ), (0:ℝ), (0:ℝ))] := by
    simp only [discretizeEdge, hsub, vnorm_two_x]
    rw [if_neg (by norm_num), show ⌊(2:ℝ) / 1⌋ = 2 by norm_num]
    simp only [show (2:ℤ).toNat = 2 from rfl]
    rw [if_neg (by push_neg; norm_num)]
    simp [List.range_succ, Prod.ext_iff, Prod.smul_mk, smul_eq_mul]
    norm_num
  have hspec : discretizeEdgeSpec ((0:ℝ), (0:ℝ), (0:ℝ)) ((2:ℝ), (0:ℝ), (0:ℝ)) 1
      = [((0:ℝ), (0:ℝ), (0:ℝ)), ((1:ℝ), (0:ℝ), (0:ℝ)), ((2:ℝ), (0:ℝ), (0:ℝ))] := by
    simp only [discretizeEdgeSpec, hsub, vnorm_two_x]
    rw [if_neg (by norm_num), show ⌊(2:ℝ) / 1⌋ = 2 by norm_num]
    simp only [show (2:ℤ).toNat = 2 from rfl]
    rw [if_neg (by push_neg; norm_num)]
    simp [List.range_succ, Prod.ext_iff, Prod.smul_mk, smul_eq_mul]
    norm_num
  refine ⟨hcode, hspec, ?_⟩
  rw [hcode, hspec]
  intro h
  exact absurd (congrArg List.length h) (by simp)

/-- Claim C6: for every sub-segment, observation point and complex current, the
contributed field of `__db_scale` equals `(μ₀/4π)·I·(vdL×r)/|r|³` with
`vdL = end − start`, `rp = (end+start)/2`, `r = point − rp`, `μ₀ = 4π·10⁻⁷`,
stated away from the midpoint singularity. -/
theorem db_scale_matches_biot_savart (s e p : Vec3) (cur : ℂ)
    (_h : p ≠ segMidpoint s e) :
    dbScale s e p cur = dbScaleSpec s e p cur := by
  simp only [dbScale, dbScaleSpec, toC, mu0, Prod.mk.injEq, Prod.smul_mk, smul_eq_mul]
  refine ⟨?_, ?_, ?_⟩ <;> (push_cast; ring)

/-- Claim C6 (witness): the formula equality at a concrete sub-segment, point
away from the midpoint, and complex current. -/
theorem db_scale_matches_biot_savart_witness :
    (((0:ℝ), (0:ℝ), (5:ℝ)) : Vec3) ≠ segMidpoint ((0:ℝ), (0:ℝ), (0:ℝ)) ((2:ℝ), (0:ℝ), (0:ℝ)) ∧
    dbScale ((0:ℝ), (0:ℝ), (0:ℝ)) ((2:ℝ), (0:ℝ), (0:ℝ)) ((0:ℝ), (0:ℝ), (5:ℝ)) (3 + 2 * Complex.I)
      = dbScaleSpec ((0:ℝ), (0:ℝ), (0:ℝ)) ((2:ℝ), (0:ℝ), (0:ℝ)) ((0:ℝ), (0:ℝ), (5:ℝ)) (3 + 2 * Complex.I) := by
  have h : (((0:ℝ), (0:ℝ), (5:ℝ)) : Vec3)
      ≠ segMidpoint ((0:ℝ), (0:ℝ), (0:ℝ)) ((2:ℝ), (0:ℝ), (0:ℝ)) := by
    simp [segMidpoint, Prod.ext_iff]
  exact ⟨h, db_scale_matches_biot_savart _ _ _ _ h⟩

section Lemmas4

/-- Sums of complex-scaled vector lists pull the scalar out. -/
theorem list_sum_map_smul (c : ℂ) (l : List α) (f : α → CVec3) :
    (l.map (fun x => c • f x)).sum = c • (l.map f).sum := by
  induction l with
  | nil => simp
  | cons x xs ih => simp [ih, smul_add]

/-- `__db_scale` is linear in the current. -/
theorem dbScale_smul (s e p : Vec3) (c cur : ℂ) :
    dbScale s e p (c * cur) = c • dbScale s e p cur := by
  simp only [dbScale]
  rw [mul_left_comm, mul_smul]

/-- `__solve_segment` is linear in the current. -/
theorem solveSegment_smul (seg : List Vec3) (p : Vec3) (c cur : ℂ) :
    solveSegment seg p (c * cur) = c • solveSegment seg p cur := by
  unfold solveSegment
  rw [← list_sum_map_smul]
  simp only [dbScale_smul]

/-- Discretization ignores the wire's current. -/
theorem discretize_current (w : Wire) (c : ℂ) (dL : ℝ) (n : ℕ) :
    discretize ⟨w.coordz, c⟩ dL n = discretize w dL n := rfl

end Lemmas4

/-- Claim C7: scaling the wire's current by a real factor `c` scales every field
vector returned by `solve` by exactly `c` (linearity of the solver in the
current, in exact arithmetic). -/
theorem solve_linear_in_current (w : Wire) (pts : List Vec3) (dL : ℝ) (c : ℝ) :
    solve ⟨w.coordz, (c : ℂ) * w.I⟩ pts dL
      = (solve w pts dL).map (fun v => (c : ℂ) • v) := by
  rw [solve_closed_form, solve_closed_form, List.map_replicate]
  congr 1
  unfold solveTotal
  simp only [discretize_current, solveSegment_smul, list_sum_map_smul]

section Lemmas5

/-- A two-point discretized segment contributes a single `__db_scale` term. -/
theorem solveSegment_pair (a b p : Vec3) (cur : ℂ) :
    solveSegment [a, b] p cur = dbScale a b p cur := by
  simp [solveSegment, List.range_succ]

end Lemmas5

/-- Claim C1: the claim (one field vector per point, the i-th summing only the
i-th point's contributions) fails on the code: on a one-edge wire with two
distinct observation points, the broadcast add makes each returned row the sum
over both points, so the output differs from the per-point superposition the
spec describes. -/
theorem solve_broadcast_per_point_mismatch :
    solve ⟨[((0:ℝ), (0:ℝ), (0:ℝ)), ((1:ℝ), (0:ℝ), (0:ℝ))], 1⟩
        [((1/2:ℝ), (0:ℝ), (1:ℝ)), ((1/2:ℝ), (0:ℝ), (2:ℝ))] 10
      ≠ solvePerPoint ⟨[((0:ℝ), (0:ℝ), (0:ℝ)), ((1:ℝ), (0:ℝ), (0:ℝ))], 1⟩
        [((1/2:ℝ), (0:ℝ), (1:ℝ)), ((1/2:ℝ), (0:ℝ), (2:ℝ))] 10 := by
  have hseg : discretize ⟨[((0:ℝ), (0:ℝ), (0:ℝ)), ((1:ℝ), (0:ℝ), (0:ℝ))], 1⟩ 10 0
      = [((0:ℝ), (0:ℝ), (0:ℝ)), ((1:ℝ), (0:ℝ), (0:ℝ))] := by
    unfold discretize
    rw [if_neg (by simp)]
    simp only [List.getD_cons_zero, List.getD_cons_succ]
    apply discretizeEdge_short
    have h1 : (((1:ℝ), (0:ℝ), (0:ℝ)) : Vec3) - ((0:ℝ), (0:ℝ), (0:ℝ))
        = ((1:ℝ), (0:ℝ), (0:ℝ)) := by simp
    rw [h1, show vnorm ((1:ℝ), (0:ℝ), (0:ℝ)) = 1 by simp [vnorm]]
    norm_num
  have hE : List.range
      ((⟨[((0:ℝ), (0:ℝ), (0:ℝ)), ((1:ℝ), (0:ℝ), (0:ℝ))], 1⟩ : Wire).coordz.length - 1)
      = [0] := rfl
  have hP : List.range
      ([((1/2:ℝ), (0:ℝ), (1:ℝ)), ((1/2:ℝ), (0:ℝ), (2:ℝ))] : List Vec3).length
      = [0, 1] := rfl
  have ht : solveTotal ⟨[((0:ℝ), (0:ℝ), (0:ℝ)), ((1:ℝ), (0:ℝ), (0:ℝ))], 1⟩
      [((1/2:ℝ), (0:ℝ), (1:ℝ)), ((1/2:ℝ), (0:ℝ), (2:ℝ))] 10
      = dbScale ((0:ℝ), (0:ℝ), (0:ℝ)) ((1:ℝ), (0:ℝ), (0:ℝ)) ((1/2:ℝ), (0:ℝ), (1:ℝ)) 1
         + dbScale ((0:ℝ), (0:ℝ), (0:ℝ)) ((1:ℝ), (0:ℝ), (0:ℝ)) ((1/2:ℝ), (0:ℝ), (2:ℝ)) 1 := by
    simp only [solveTotal, hE, hP, List.map_cons, List.map_nil, List.sum_cons,
      List.sum_nil, add_zero, List.getD_cons_zero, List.getD_cons_succ, hseg,
      solveSegment_pair]
  have hR : solvePerPoint ⟨[((0:ℝ), (0:ℝ), (0:ℝ)), ((1:ℝ), (0:ℝ), (0:ℝ))], 1⟩
      [((1/2:ℝ), (0:ℝ), (1:ℝ)), ((1/2:ℝ), (0:ℝ), (2:ℝ))] 10
      = [dbScale ((0:ℝ), (0:ℝ), (0:ℝ)) ((1:ℝ), (0:ℝ), (0:ℝ)) ((1/2:ℝ), (0:ℝ), (1:ℝ)) 1,
         dbScale ((0:ℝ), (0:ℝ), (0:ℝ)) ((1:ℝ), (0:ℝ), (0:ℝ)) ((1/2:ℝ), (0:ℝ), (2:ℝ)) 1] := by
    simp only [solvePerPoint, hE, List.map_cons, List.map_nil, List.sum_cons,
      List.sum_nil, add_zero, hseg, solveSegment_pair]
  have hL : solve ⟨[((0:ℝ), (0:ℝ), (0:ℝ)), ((1:ℝ), (0:ℝ), (0:ℝ))], 1⟩
      [((1/2:ℝ), (0:ℝ), (1:ℝ)), ((1/2:ℝ), (0:ℝ), (2:ℝ))] 10
      = [dbScale ((0:ℝ), (0:ℝ), (0:ℝ)) ((1:ℝ), (0:ℝ), (0:ℝ)) ((1/2:ℝ), (0:ℝ), (1:ℝ)) 1
           + dbScale ((0:ℝ), (0:ℝ), (0:ℝ)) ((1:ℝ), (0:ℝ), (0:ℝ)) ((1/2:ℝ), (0:ℝ), (2:ℝ)) 1,
         dbScale ((0:ℝ), (0:ℝ), (0:ℝ)) ((1:ℝ), (0:ℝ), (0:ℝ)) ((1/2:ℝ), (0:ℝ), (1:ℝ)) 1
           + dbScale ((0:ℝ), (0:ℝ), (0:ℝ)) ((1:ℝ), (0:ℝ), (0:ℝ)) ((1/2:ℝ), (0:ℝ), (2:ℝ)) 1] := by
    rw [solve_closed_form, ht]
    rfl
  rw [hL, hR]
  intro h
  have h0 : dbScale ((0:ℝ), (0:ℝ), (0:ℝ)) ((1:ℝ), (0:ℝ), (0:ℝ)) ((1/2:ℝ), (0:ℝ), (1:ℝ)) 1
        + dbScale ((0:ℝ), (0:ℝ), (0:ℝ)) ((1:ℝ), (0:ℝ), (0:ℝ)) ((1/2:ℝ), (0:ℝ), (2:ℝ)) 1
      = dbScale ((0:ℝ), (0:ℝ), (0:ℝ)) ((1:ℝ), (0:ℝ), (0:ℝ)) ((1/2:ℝ), (0:ℝ), (1:ℝ)) 1 :=
    (List.cons_eq_cons.mp h).1
  have hz : dbScale ((0:ℝ), (0:ℝ), (0:ℝ)) ((1:ℝ), (0:ℝ), (0:ℝ)) ((1/2:ℝ), (0:ℝ), (2:ℝ)) 1
      = 0 := add_right_eq_self.mp h0
  have hr : (((1/2:ℝ), (0:ℝ), (2:ℝ)) : Vec3)
      - segMidpoint ((0:ℝ), (0:ℝ), (0:ℝ)) ((1:ℝ), (0:ℝ), (0:ℝ)) = ((0:ℝ), (0:ℝ), (2:ℝ)) := by
    simp [segMidpoint, Prod.ext_iff]
  have hvdL : (((1:ℝ), (0:ℝ), (0:ℝ)) : Vec3) - ((0:ℝ), (0:ℝ), (0:ℝ))
      = ((1:ℝ), (0:ℝ), (0:ℝ)) := by simp
  have hcross : cross ((1:ℝ), (0:ℝ), (0:ℝ)) ((0:ℝ), (0:ℝ), (2:ℝ))
      = ((0:ℝ), (-2:ℝ), (0:ℝ)) := by
    simp [cross, Prod.ext_iff]
  have hvn : 0 < vnorm ((0:ℝ), (0:ℝ), (2:ℝ)) := by
    unfold vnorm
    apply Real.sqrt_pos.mpr
    norm_num
  rw [show (0 : CVec3) = ((0:ℂ), (0:ℂ), (0:ℂ)) from rfl] at hz
  simp only [dbScale, hvdL, hr, hcross, toC, Prod.smul_mk, smul_eq_mul,
    Prod.mk.injEq] at hz
  refine absurd hz.2.1 (mul_ne_zero (mul_ne_zero ?_ one_ne_zero) ?_)
  · rw [Complex.ofReal_ne_zero]
    positivity
  · rw [Complex.ofReal_ne_zero]
    exact div_ne_zero (by norm_num) (pow_ne_zero 3 (ne_of_gt hvn))

/-- The mutable state of a `solve` call: the wire and observation points it
reads, and the accumulator array `B` it writes. -/
structure SolveState where
  wire : Wire
  points : List Vec3
  B : List CVec3

/-- State-passing embedding of the loops of `BiotSolver.solve`: each iteration
reads the wire and points from the current state and reassigns only `B`. -/
noncomputable def solveRun (s : SolveState) (dL : ℝ) : SolveState :=
  (List.range (s.wire.coordz.length - 1)).foldl (fun st i =>
    (List.range st.points.length).foldl (fun st' p =>
      { st' with
        B := st'.B.map (fun y =>
          y + solveSegment (discretize st'.wire dL i) (st'.points.getD p 0) st'.wire.I) }) st) s

section Lemmas6

/-- The inner point loop preserves the wire and the points and acts on `B`
exactly as the pure fold does. -/
theorem solveRun_inner (l : List ℕ) (w : Wire) (pts : List Vec3) (dL : ℝ)
    (i : ℕ) (B : List CVec3) :
    l.foldl (fun (st' : SolveState) (p : ℕ) =>
      { st' with
        B := st'.B.map (fun y =>
          y + solveSegment (discretize st'.wire dL i) (st'.points.getD p 0) st'.wire.I) })
      (⟨w, pts, B⟩ : SolveState)
      = (⟨w, pts, l.foldl (fun B' p =>
          B'.map (fun y =>
            y + solveSegment (discretize w dL i) (pts.getD p 0) w.I)) B⟩ : SolveState) := by
  induction l generalizing B with
  | nil => rfl
  | cons x xs ih => simp only [List.foldl_cons, ih]

/-- The state-passing run never mutates the wire or the points, and computes
the same accumulator as the pure `solveFold`. -/
theorem solveRun_eq (w : Wire) (pts : List Vec3) (dL : ℝ) (B : List CVec3) :
    solveRun ⟨w, pts, B⟩ dL = (⟨w, pts, solveFold w pts dL B⟩ : SolveState) := by
  unfold solveRun solveFold
  generalize List.range (w.coordz.length - 1) = l
  induction l generalizing B with
  | nil => rfl
  | cons x xs ih =>
    simp only [List.foldl_cons, solveRun_inner, ih]

end Lemmas6

/-- Claim C10: `solve` reads but never mutates the wire's coordinates, the
wire's current, or the observation points, and its output is a function of
those inputs alone, so two invocations on identical inputs return identical
results. -/
theorem solve_no_mutation_deterministic (w : Wire) (pts : List Vec3) (dL : ℝ) :
    (solveRun ⟨w, pts, List.replicate pts.length 0⟩ dL).wire = w ∧
    (solveRun ⟨w, pts, List.replicate pts.length 0⟩ dL).points = pts ∧
    (solveRun ⟨w, pts, List.replicate pts.length 0⟩ dL).B = solve w pts dL := by
  rw [solveRun_eq]
  exact ⟨rfl, rfl, rfl⟩

noncomputable section Geom

/-- Orientation planes accepted by `Coil.init_coil` (src/geom.py). -/
inductive CoilOrientation
  | xy
  | xz
  | yz

/-- `Coil` (src/geom.py lines 12-41): center, radius, number of sample points,
orientation plane, and complex current (the constructor sets `I = 1+0j`). -/
structure Coil where
  center : Vec3
  radius : ℝ
  num_points : ℕ
  orientation : CoilOrientation
  I : ℂ

/-- `np.linspace(a, b, n)`: `n` evenly spaced samples from `a` to `b`
inclusive. -/
def linspace (a b : ℝ) (n : ℕ) : List ℝ :=
  (List.range n).map (fun i : ℕ => a + (b - a) * (i : ℝ) / ((n : ℝ) - 1))

/-- `Coil.init_coil` (lines 43-69): the vertex coordinates of the coil, as in
the source (for `xz` the z-coordinate uses `center[1]`; the unused coordinate
is zero). -/
def Coil.coordz (c : Coil) : List Vec3 :=
  (linspace 0 (2 * Real.pi) c.num_points).map (fun t =>
    match c.orientation with
    | .xy => (c.center.1 + c.radius * Real.sin t, c.center.2.1 + c.radius * Real.cos t, 0)
    | .xz => (c.center.1 + c.radius * Real.sin t, 0, c.center.2.1 + c.radius * Real.cos t)
    | .yz => (0, c.center.2.1 + c.radius * Real.sin t, c.center.2.2 + c.radius * Real.cos t))

/-- The wire data a `Coil` presents to the field solver. -/
def Coil.toWire (c : Coil) : Wire := ⟨c.coordz, c.I⟩

/-- `max` of a Python list (nonempty in all uses; `0` as junk value for `[]`). -/
def listMax : List ℝ → ℝ
  | [] => 0
  | a :: as => as.foldl max a

/-- First index of a list holding the value `m`
(`np.where(b_norm == max(b_norm))[0][0]`). -/
def firstIdxEq : List ℝ → ℝ → ℕ
  | [], _ => 0
  | a :: t, m => if a = m then 0 else firstIdxEq t m + 1

/-- Index of the first occurrence of the maximum of a list. -/
def firstMaxIdx (l : List ℝ) : ℕ := firstIdxEq l (listMax l)

/-- One Simpson triple of `scipy.integrate.simps` over the unevenly spaced
samples `x` with values `y`, starting at index `j`. -/
def simpTerm (y x : List ℝ) (j : ℕ) : ℝ :=
  let h0 := x.getD (j + 1) 0 - x.getD j 0
  let h1 := x.getD (j + 2) 0 - x.getD (j + 1) 0
  (h0 + h1) / 6 * (y.getD j 0 * (2 - h1 / h0)
    + y.getD (j + 1) 0 * ((h0 + h1) ^ 2 / (h0 * h1))
    + y.getD (j + 2) 0 * (2 - h0 / h1))

/-- Sum of `c` Simpson triples starting at index `s` with stride 2. -/
def simpTriples (y x : List ℝ) (s c : ℕ) : ℝ :=
  ((List.range c).map (fun t => simpTerm y x (s + 2 * t))).sum

/-- `scipy.integrate.simps(y, x)` with the default `even='avg'` handling: for an
odd number of samples the composite rule; for an even number the average of the
first/last trapezoid corrections. -/
def simpsRule (y x : List ℝ) : ℝ :=
  let N := y.length
  if N % 2 = 1 then simpTriples y x 0 ((N - 1) / 2)
  else
    (simpTriples y x 0 ((N - 2) / 2) + simpTriples y x 1 ((N - 2) / 2)) / 2
      + ((x.getD (N - 1) 0 - x.getD (N - 2) 0) * (y.getD (N - 1) 0 + y.getD (N - 2) 0) / 2
         + (x.getD 1 0 - x.getD 0 0) * (y.getD 0 0 + y.getD 1 0) / 2) / 2

/-- The radial sample offsets of `Coil.calc_inductance` (line 84):
`np.linspace(0, mutual_coil.radius, mutual_coil.num_points)`. -/
def radialOffsets (tgt : Coil) : List ℝ := linspace 0 tgt.radius tgt.num_points

/-- The integral points of `Coil.calc_inductance` (lines 85-88): a line from the
target coil's center along +z out to its radius. -/
def radialLine (tgt : Coil) : List Vec3 :=
  (radialOffsets tgt).map (fun t => (tgt.center.1, tgt.center.2.1, tgt.center.2.2 + t))

/-- The field-magnitude profile of `Coil.calc_inductance` (lines 91-93): solve
the source coil's field on the target's radial line with `dL = 0.1` and take
row norms. -/
def bNormProfile (src tgt : Coil) : List ℝ :=
  (solve src.toWire (radialLine tgt) 0.1).map cnorm

/-- The truncated profile used for self-inductance (lines 96-99):
`b_norm[:max_index+1]` at the first index attaining the maximum. -/
def truncProfile (src tgt : Coil) : List ℝ :=
  (bNormProfile src tgt).take (firstMaxIdx (bNormProfile src tgt) + 1)

/-- `Coil.calc_inductance` (lines 72-128). `isSelf` models the Python object
identity test `self == mutual_coil`; when it holds, the profile is truncated at
the first peak and the radial offsets cut to the same length. The flux is the
Simpson integral of `2π·r` times the field magnitude over the radial offsets,
and the result is flux over `np.linalg.norm(self.I)`. -/
def calcInductance (src mcoil : Coil) (isSelf : Bool) : ℝ :=
  let bNorm := bNormProfile src mcoil
  let bN := if isSelf then bNorm.take (firstMaxIdx bNorm + 1) else bNorm
  let pts := if isSelf then (radialOffsets mcoil).take bN.length else radialOffsets mcoil
  let area := pts.map (fun t => 2 * Real.pi * t)
  let integrand := List.zipWith (fun a b => a * b) area bN
  let flux := simpsRule integrand pts
  flux / Complex.abs src.I

/-- Modelled from the spec's inductance contract: solve the source's field along
a radial sample line from the target's center out to its radius, take the field
magnitude at each sample, multiply by the circular-area element `2πr`, integrate
by Simpson's rule over the radial coordinate, and divide the flux by the
magnitude of the source coil's current. -/
def inductanceSpec (source target : Coil) : ℝ :=
  let rs := linspace 0 target.radius target.num_points
  let samples := rs.map (fun t => (target.center.1, target.center.2.1, target.center.2.2 + t))
  let mags := (solve source.toWire samples 0.1).map cnorm
  simpsRule (List.zipWith (fun r m => 2 * Real.pi * r * m) rs mags) rs
    / Complex.abs source.I

end Geom

/-- Claim C8: for every source and target coil (the mutual case, distinct
objects), `calc_inductance` returns the flux obtained by solving the field
along the radial sample line from the target's center out to its radius,
taking the field magnitude at each sample, multiplying by the circular-area
element, Simpson-integrating over the radial coordinate, and dividing by the
magnitude of the source coil's current. -/
theorem calc_inductance_radial_simpson (src tgt : Coil) :
    calcInductance src tgt false = inductanceSpec src tgt := by
  unfold calcInductance inductanceSpec bNormProfile radialLine radialOffsets
  simp only [Bool.false_eq_true, if_false, List.zipWith_map_left]

section Lemmas7

/-- A left fold of `max` stays among the initial value and the list elements. -/
theorem foldl_max_mem (as : List ℝ) (a : ℝ) : as.foldl max a ∈ a :: as := by
  induction as generalizing a with
  | nil => simp
  | cons b bs ih =>
    rw [List.foldl_cons]
    rcases List.mem_cons.mp (ih (max a b)) with h1 | h1
    · rw [h1]
      rcases max_choice a b with h2 | h2 <;> rw [h2]
      · exact List.mem_cons_self _ _
      · exact List.mem_cons_of_mem _ (List.mem_cons_self _ _)
    · exact List.mem_cons_of_mem _ (List.mem_cons_of_mem _ h1)

/-- `firstIdxEq` finds the first occurrence of a value present in the list:
the index is in range, holds the value, and no earlier index does. -/
theorem firstIdxEq_spec (l : List ℝ) (m : ℝ) (h : m ∈ l) :
    firstIdxEq l m < l.length ∧ l.getD (firstIdxEq l m) 0 = m ∧
      ∀ j, j < firstIdxEq l m → l.getD j 0 ≠ m := by
  induction l with
  | nil => exact absurd h (List.not_mem_nil m)
  | cons a t ih =>
    by_cases ha : a = m
    · refine ⟨?_, ?_, ?_⟩ <;> simp [firstIdxEq, ha]
    · have hm : m ∈ t := by
        rcases List.mem_cons.mp h with h1 | h1
        · exact absurd h1.symm ha
        · exact h1
      obtain ⟨h1, h2, h3⟩ := ih hm
      simp only [firstIdxEq, if_neg ha]
      refine ⟨by simpa using Nat.succ_lt_succ h1, by simpa using h2, ?_⟩
      intro j hj
      cases j with
      | zero => simpa using ha
      | succ n =>
        rw [List.getD_cons_succ]
        exact h3 n (Nat.lt_of_succ_lt_succ hj)

/-- Simpson integration of fewer than two samples yields zero. -/
theorem simpsRule_short (y x : List ℝ) (h : y.length < 2) : simpsRule y x = 0 := by
  have h01 : y.length = 0 ∨ y.length = 1 := by omega
  rcases h01 with h0 | h1
  · have hy : y = [] := List.eq_nil_of_length_eq_zero h0
    subst hy
    simp [simpsRule, simpTriples, List.getD]
  · obtain ⟨b, hb⟩ := List.length_eq_one.mp h1
    subst hb
    simp [simpsRule, simpTriples]

/-- With fewer than two samples after truncation, the self-inductance path still
integrates (obtaining zero flux) and returns `0` instead of failing. -/
theorem calcInductance_short (src tgt : Coil)
    (h : (truncProfile src tgt).length < 2) :
    calcInductance src tgt true = 0 := by
  unfold calcInductance
  simp only [if_true]
  rw [show (bNormProfile src tgt).take (firstMaxIdx (bNormProfile src tgt) + 1)
      = truncProfile src tgt from rfl]
  rw [simpsRule_short _ _ ?_, zero_div]
  calc (List.zipWith (fun a b => a * b)
        (((radialOffsets tgt).take (truncProfile src tgt).length).map
          (fun t => 2 * Real.pi * t))
        (truncProfile src tgt)).length
      = min (((radialOffsets tgt).take (truncProfile src tgt).length).map
          (fun t => 2 * Real.pi * t)).length (truncProfile src tgt).length :=
        List.length_zipWith _ _ _
    _ ≤ (truncProfile src tgt).length := min_le_right _ _
    _ < 2 := h

end Lemmas7

/-- Claim C9 (amended): for a wire solved against itself, the integration domain
is truncated at the first index attaining the maximum field magnitude (the
returned index holds the maximum and every earlier index does not), but there is
no IntegrationDomainEmpty check: when the truncated domain has fewer than two
sample points, `calc_inductance` still integrates (Simpson on fewer than two
samples gives zero flux) and returns `0` rather than failing. -/
theorem self_inductance_truncation_behavior (src tgt : Coil) :
    (bNormProfile src tgt ≠ [] →
      (bNormProfile src tgt).getD (firstMaxIdx (bNormProfile src tgt)) 0
          = listMax (bNormProfile src tgt) ∧
      (∀ j, j < firstMaxIdx (bNormProfile src tgt) →
          (bNormProfile src tgt).getD j 0 ≠ listMax (bNormProfile src tgt))) ∧
    ((truncProfile src tgt).length < 2 → calcInductance src tgt true = 0) := by
  constructor
  · intro hne
    have hmem : listMax (bNormProfile src tgt) ∈ bNormProfile src tgt := by
      cases hl : bNormProfile src tgt with
      | nil => exact absurd hl hne
      | cons a as => simpa [listMax] using foldl_max_mem as a
    obtain ⟨_, h2, h3⟩ := firstIdxEq_spec _ _ hmem
    exact ⟨h2, h3⟩
  · exact calcInductance_short src tgt

/-- A coil with a single sample point, on which the self-inductance truncation
collapses the integration domain to one sample. -/
noncomputable def tinyCoil : Coil := ⟨((0:ℝ), (0:ℝ), (0:ℝ)), 1, 1, .yz, 1⟩

/-- A second single-sample coil, used to instantiate the amended claim. -/
noncomputable def tinyCoilTwo : Coil := ⟨((0:ℝ), (0:ℝ), (0:ℝ)), 2, 1, .yz, 1⟩

section Lemmas8

/-- The field-magnitude profile of a single-sample coil has exactly one entry. -/
theorem bNormProfile_tiny_length (c : Coil) (h : c.num_points = 1) :
    (bNormProfile c c).length = 1 := by
  unfold bNormProfile
  rw [List.length_map, solve_length]
  unfold radialLine radialOffsets linspace
  rw [List.length_map, List.length_map, List.length_range, h]

end Lemmas8

/-- Claim C9 (counterexample): a coil sampled at a single point truncates its
own profile to fewer than two samples, yet `calc_inductance` returns the value
`0` instead of failing with IntegrationDomainEmpty. -/
theorem self_inductance_no_domain_error_counterexample :
    (truncProfile tinyCoil tinyCoil).length < 2 ∧
    calcInductance tinyCoil tinyCoil true = 0 := by
  have hlen : (bNormProfile tinyCoil tinyCoil).length = 1 :=
    bNormProfile_tiny_length tinyCoil rfl
  have ht : (truncProfile tinyCoil tinyCoil).length < 2 := by
    unfold truncProfile
    rw [List.length_take, hlen]
    exact Nat.lt_of_le_of_lt (min_le_right _ _) (by norm_num)
  exact ⟨ht, calcInductance_short _ _ ht⟩

/-- Claim C9 (witness): the amended statement instantiated at a concrete
single-sample coil. -/
theorem self_inductance_truncation_behavior_witness :
    bNormProfile tinyCoilTwo tinyCoilTwo ≠ [] ∧
    (truncProfile tinyCoilTwo tinyCoilTwo).length < 2 ∧
    (bNormProfile tinyCoilTwo tinyCoilTwo).getD
        (firstMaxIdx (bNormProfile tinyCoilTwo tinyCoilTwo)) 0
      = listMax (bNormProfile tinyCoilTwo tinyCoilTwo) ∧
    calcInductance tinyCoilTwo tinyCoilTwo true = 0 := by
  have hlen : (bNormProfile tinyCoilTwo tinyCoilTwo).length = 1 :=
    bNormProfile_tiny_length tinyCoilTwo rfl
  have hne : bNormProfile tinyCoilTwo tinyCoilTwo ≠ [] := by
    intro hnil
    rw [hnil] at hlen
    exact absurd hlen (by norm_num)
  have ht : (truncProfile tinyCoilTwo tinyCoilTwo).length < 2 := by
    unfold truncProfile
    rw [List.length_take, hlen]
    exact Nat.lt_of_le_of_lt (min_le_right _ _) (by norm_num)
  exact ⟨hne, ht,
    ((self_inductance_truncation_behavior tinyCoilTwo tinyCoilTwo).1 hne).1,
    (self_inductance_truncation_behavior tinyCoilTwo tinyCoilTwo).2 ht⟩
